import Mathlib

/-!
# Verification of the eBay search client (`src/ebay_api.rs`, `src/main.rs`)

A shallow embedding of the repository's two Rust source files:

* `SearchConfig::new` (src/ebay_api.rs, lines 106-134): builds the header map
  and query-parameter map for one search request.
* `post_query` (src/ebay_api.rs, lines 137-161): issues the request through a
  transport, and on a 2xx status parses the body as JSON and pretty-prints it;
  on a non-2xx status prints the status code; panics (via `.expect`) when the
  body does not parse.
* `main` (src/main.rs, lines 26-49): reads the config file, builds the
  configuration and fires the query.

Rust specifics modelled explicitly:

* `reqwest::header::HeaderValue::from_str` accepts exactly the strings whose
  UTF-8 bytes `b` satisfy `b >= 32 && b != 127 || b == 9`; since every byte of
  a multi-byte UTF-8 sequence is `>= 0x80`, this is equivalent to the
  character-wise predicate `headerCharValid` used here.
* `serde_json::Map` is backed by a `BTreeMap`, so its entries are kept sorted
  by key; `mapInsert` reproduces the ordered insert.
* `serde_json`'s value grammar is modelled on its integer fragment
  (`Json.num : Int`): bodies containing fractional or exponent number syntax
  are outside the model (the parser rejects them), as are `\uXXXX` string
  escapes denoting surrogates.
-/

namespace EbayApi

/-- Model of `serde_json::Value` restricted to integer numbers.  Objects are
association lists kept sorted by key, mirroring the `BTreeMap` backing
`serde_json::Map`. -/
inductive Json where
  | null : Json
  | bool (b : Bool) : Json
  | num (n : Int) : Json
  | str (s : String) : Json
  | arr (xs : List Json) : Json
  | obj (kvs : List (String × Json)) : Json
  deriving Repr

/-- Validity of a character inside an HTTP header value, as checked by
`http::HeaderValue::from_str` (byte check `b >= 32 && b != 127 || b == 9`,
lifted to characters; code points `>= 0x80` encode to bytes `>= 0x80`, all of
which pass the byte check). -/
def headerCharValid (c : Char) : Bool :=
  c == '\t' || (32 ≤ c.toNat && c.toNat != 127)

/-- Model of `reqwest::header::HeaderValue::from_str`: succeeds exactly when
every character is valid in a header value. -/
def headerValueFromStr (s : String) : Option String :=
  if s.data.all headerCharValid then some s else none

/-- Lexicographic order on characters, the order `BTreeMap<String, _>` uses
(UTF-8 byte order coincides with code-point order). -/
def charListLt : List Char → List Char → Bool
  | [], [] => false
  | [], _ :: _ => true
  | _ :: _, [] => false
  | a :: as, b :: bs =>
    if a.toNat < b.toNat then true
    else if b.toNat < a.toNat then false
    else charListLt as bs

/-- Key order of `serde_json::Map`. -/
def strLt (a b : String) : Bool := charListLt a.data b.data

/-- Ordered insert into a `serde_json::Map` (a `BTreeMap`): keeps keys sorted,
replaces the value on an existing key. -/
def mapInsert (k : String) (v : Json) : List (String × Json) → List (String × Json)
  | [] => [(k, v)]
  | (k', v') :: rest =>
    if strLt k k' then (k, v) :: (k', v') :: rest
    else if k = k' then (k, v) :: rest
    else (k', v') :: mapInsert k v rest

/-- `SearchConfig` (src/ebay_api.rs lines 93-99).  Headers are an association
list in insertion order (a `HeaderMap` with two distinct names);
`search_parameters` is the sorted `serde_json::Map`. -/
structure SearchConfig where
  app_id : String
  cert_id : String
  search_url : String
  headers : List (String × String)
  search_parameters : List (String × Json)
  deriving Repr

/-- `SearchConfig::new` (src/ebay_api.rs lines 106-134).  The `.unwrap()` on
the authorization `HeaderValue` is modelled as `Option`: `none` is the panic
of the original. -/
def SearchConfig.new (query : Json) (access_token : String) : Option SearchConfig :=
  match headerValueFromStr ("Bearer " ++ access_token) with
  | none => none
  | some auth =>
    some
      { app_id := "AdamCarr-mtgcardf-SBX-3ac219c73-c36c6538"
        cert_id := "SBX-ac219c739b47-816b-43f8-964f-6b1a"
        search_url := "https://api.sandbox.ebay.com/buy/browse/v1/item_summary/search"
        headers := [("content-type", "application/json"), ("authorization", auth)]
        search_parameters := mapInsert "limit" (Json.str "5") (mapInsert "q" query []) }

/-! ## Model of the `serde_json` value grammar (integer fragment)

`post_query` parses the response body with `serde_json::from_str` and
re-serializes it with `serde_json::to_string_pretty`.  Both are modelled here
over `Json`.  The pretty printer reproduces `serde_json::ser::PrettyFormatter`
(two-space indentation, `": "` after keys, `[]`/`\x7b\x7d` for empty
containers, the standard escape table with lowercase `\u00XX` for unnamed
control characters).  The parser reproduces `serde_json::de` on the integer
fragment: fractional/exponent number forms and surrogate `\uXXXX` escapes are
rejected rather than parsed. -/

/-- `\x7b`, written out so the character never appears bare in the file. -/
def lbrace : Char := Char.ofNat 123

/-- `\x7d`. -/
def rbrace : Char := Char.ofNat 125

/-- Decimal digit? (`b'0'..=b'9'`). -/
def isDigitChar (c : Char) : Bool := 48 ≤ c.toNat && c.toNat ≤ 57

/-- The character for a decimal digit `d < 10`. -/
def decDigitChar (d : Nat) : Char := Char.ofNat (48 + d)

/-- Decimal digits of `n` prepended to `acc` (with enough `fuel`; nothing is
written for 0, as in the `itoa` buffer loop). -/
def natToChars (fuel n : Nat) (acc : List Char) : List Char :=
  match fuel with
  | 0 => acc
  | f + 1 => if n = 0 then acc else natToChars f (n / 10) (decDigitChar (n % 10) :: acc)

/-- Decimal notation of a natural number, as `itoa` prints it. -/
def printNat (n : Nat) : List Char :=
  if n = 0 then ['0'] else natToChars n n []

/-- Decimal notation of an integer, as `itoa` prints it. -/
def printInt : Int → List Char
  | Int.ofNat n => printNat n
  | Int.negSucc m => '-' :: printNat (m + 1)

/-- The escape table of `serde_json::ser` (named escapes for the usual control
characters, lowercase `\u00XX` for the rest, everything else raw). -/
def escapeChar (c : Char) : List Char :=
  if c = '"' then ['\\', '"']
  else if c = '\\' then ['\\', '\\']
  else if c = '\x08' then ['\\', 'b']
  else if c = '\x0c' then ['\\', 'f']
  else if c = '\n' then ['\\', 'n']
  else if c = '\r' then ['\\', 'r']
  else if c = '\t' then ['\\', 't']
  else if c.toNat < 32 then
    ['\\', 'u', '0', '0',
     (if c.toNat / 16 < 10 then decDigitChar (c.toNat / 16) else Char.ofNat (87 + c.toNat / 16)),
     (if c.toNat % 16 < 10 then decDigitChar (c.toNat % 16) else Char.ofNat (87 + c.toNat % 16))]
  else [c]

/-- Escaped form of a string body (without the surrounding quotes). -/
def escapeString (s : String) : List Char := s.data.flatMap escapeChar

/-- Newline plus the indentation of depth `d` (`PrettyFormatter` indents with
two spaces per level). -/
def newlineIndent (d : Nat) : List Char := '\n' :: List.replicate (2 * d) ' '

mutual

/-- `serde_json::to_string_pretty` at depth `d`. -/
def printVal (d : Nat) : Json → List Char
  | .null => 'n' :: "ull".data
  | .bool true => 't' :: "rue".data
  | .bool false => 'f' :: "alse".data
  | .num n => printInt n
  | .str s => '"' :: (escapeString s ++ ['"'])
  | .arr [] => ['[', ']']
  | .arr (x :: xs) =>
      '[' :: (newlineIndent (d + 1) ++ (printVal (d + 1) x ++
        (printArrItems (d + 1) xs ++ (newlineIndent d ++ [']']))))
  | .obj [] => [lbrace, rbrace]
  | .obj ((k, v) :: kvs) =>
      lbrace :: (newlineIndent (d + 1) ++ (printMember (d + 1) k v ++
        (printObjItems (d + 1) kvs ++ (newlineIndent d ++ [rbrace]))))

/-- One `"key": value` member. -/
def printMember (d : Nat) (k : String) (v : Json) : List Char :=
  '"' :: (escapeString k ++ ('"' :: ':' :: ' ' :: printVal d v))

/-- The second and later array elements, each preceded by `,\n` + indent. -/
def printArrItems (d : Nat) : List Json → List Char
  | [] => []
  | x :: xs => ',' :: (newlineIndent d ++ (printVal d x ++ printArrItems d xs))

/-- The second and later object members. -/
def printObjItems (d : Nat) : List (String × Json) → List Char
  | [] => []
  | (k, v) :: kvs => ',' :: (newlineIndent d ++ (printMember d k v ++ printObjItems d kvs))

end

/-- `serde_json::to_string_pretty` (it cannot fail on a `Value`, so it is
total here; the `.expect("failed to pretty json")` branch is dead). -/
def pretty (v : Json) : String := String.mk (printVal 0 v)

/-- JSON insignificant whitespace (`b' '`, `b'\t'`, `b'\n'`, `b'\r'` in the
`serde_json` lexer). -/
def wsChar (c : Char) : Bool :=
  c == ' ' || c == '\t' || c == '\n' || c == '\r'

/-- Drop insignificant whitespace, as the `serde_json` deserializer does
between tokens. -/
def dropWs : List Char → List Char
  | [] => []
  | c :: cs => if wsChar c then dropWs cs else c :: cs

/-- Value of a hex digit (both cases), `None` otherwise. -/
def hexVal? (c : Char) : Option Nat :=
  if 48 ≤ c.toNat ∧ c.toNat ≤ 57 then some (c.toNat - 48)
  else if 97 ≤ c.toNat ∧ c.toNat ≤ 102 then some (c.toNat - 87)
  else if 65 ≤ c.toNat ∧ c.toNat ≤ 70 then some (c.toNat - 55)
  else none

/-- Inverse of the named escapes accepted after a backslash. -/
def escUnmap (e : Char) : Option Char :=
  if e = '"' then some '"'
  else if e = '\\' then some '\\'
  else if e = '/' then some '/'
  else if e = 'b' then some '\x08'
  else if e = 'f' then some '\x0c'
  else if e = 'n' then some '\n'
  else if e = 'r' then some '\r'
  else if e = 't' then some '\t'
  else none

/-- String-body scanner of the deserializer: reads up to the closing quote,
resolving escapes; rejects raw control characters and surrogate `\uXXXX`
values. -/
def parseStrChars : List Char → Option (List Char × List Char)
  | [] => none
  | c :: rest =>
    if c = '"' then some ([], rest)
    else if c = '\\' then
      match rest with
      | [] => none
      | e :: rest2 =>
        if e = 'u' then
          match rest2 with
          | h1 :: h2 :: h3 :: h4 :: rest3 =>
            match hexVal? h1, hexVal? h2, hexVal? h3, hexVal? h4 with
            | some d1, some d2, some d3, some d4 =>
              let n := ((d1 * 16 + d2) * 16 + d3) * 16 + d4
              if n < 55296 then
                (parseStrChars rest3).map (fun p => (Char.ofNat n :: p.1, p.2))
              else none
            | _, _, _, _ => none
          | _ => none
        else
          match escUnmap e with
          | some c2 => (parseStrChars rest2).map (fun p => (c2 :: p.1, p.2))
          | none => none
    else if c.toNat < 32 then none
    else (parseStrChars rest).map (fun p => (c :: p.1, p.2))

/-- Digit run of an unsigned integer literal: `0` alone, or a nonzero leading
digit followed by any digits (the `0` | `[1-9][0-9]*` grammar; a digit after a
leading `0` is left in the remainder exactly as `serde_json` leaves it, where
it then trips the surrounding syntax). -/
def parseNatNum : List Char → Option (Nat × List Char)
  | [] => none
  | c :: rest =>
    if c = '0' then some (0, rest)
    else if isDigitChar c then
      some ((c :: rest.takeWhile isDigitChar).foldl (fun a d => a * 10 + (d.toNat - 48)) 0,
            rest.dropWhile isDigitChar)
    else none

/-- Integer literal with optional sign. -/
def parseNumber : List Char → Option (Int × List Char)
  | [] => none
  | c :: rest =>
    if c = '-' then (parseNatNum rest).map (fun p => (-(p.1 : Int), p.2))
    else (parseNatNum (c :: rest)).map (fun p => ((p.1 : Int), p.2))

mutual

/-- The `serde_json` value deserializer (fuel-indexed; every recursive call
consumes input, so `length + 1` fuel never runs out on a parse that would
succeed). -/
def parseVal : Nat → List Char → Option (Json × List Char)
  | 0, _ => none
  | fuel + 1, cs =>
    match dropWs cs with
    | [] => none
    | c :: rest =>
      if c = 'n' then
        match rest with
        | 'u' :: 'l' :: 'l' :: r => some (.null, r)
        | _ => none
      else if c = 't' then
        match rest with
        | 'r' :: 'u' :: 'e' :: r => some (.bool true, r)
        | _ => none
      else if c = 'f' then
        match rest with
        | 'a' :: 'l' :: 's' :: 'e' :: r => some (.bool false, r)
        | _ => none
      else if c = '"' then
        (parseStrChars rest).map (fun p => (.str (String.mk p.1), p.2))
      else if c = '[' then
        match dropWs rest with
        | [] => none
        | c2 :: r2 =>
          if c2 = ']' then some (.arr [], r2)
          else
            match parseVal fuel (c2 :: r2) with
            | none => none
            | some (x, r3) =>
              match parseArrRest fuel [x] r3 with
              | none => none
              | some (xs, r4) => some (.arr xs, r4)
      else if c = lbrace then
        match dropWs rest with
        | [] => none
        | c2 :: r2 =>
          if c2 = rbrace then some (.obj [], r2)
          else
            match parseMember fuel (c2 :: r2) with
            | none => none
            | some ((k, v), r3) =>
              match parseObjRest fuel (mapInsert k v []) r3 with
              | none => none
              | some (kvs, r4) => some (.obj kvs, r4)
      else if c = '-' || isDigitChar c then
        (parseNumber (c :: rest)).map (fun p => (.num p.1, p.2))
      else none

/-- One `"key": value` member. -/
def parseMember : Nat → List Char → Option ((String × Json) × List Char)
  | 0, _ => none
  | fuel + 1, cs =>
    match dropWs cs with
    | [] => none
    | c :: rest =>
      if c = '"' then
        match parseStrChars rest with
        | none => none
        | some (kcs, r2) =>
          match dropWs r2 with
          | [] => none
          | c3 :: r3 =>
            if c3 = ':' then
              match parseVal fuel r3 with
              | none => none
              | some (v, r4) => some ((String.mk kcs, v), r4)
            else none
      else none

/-- Array elements after the first: `, value`* then `]`.  Elements are pushed
in order, as onto a `Vec`. -/
def parseArrRest : Nat → List Json → List Char → Option (List Json × List Char)
  | 0, _, _ => none
  | fuel + 1, acc, cs =>
    match dropWs cs with
    | [] => none
    | c :: rest =>
      if c = ',' then
        match parseVal fuel rest with
        | none => none
        | some (x, r2) => parseArrRest fuel (acc ++ [x]) r2
      else if c = ']' then some (acc, rest)
      else none

/-- Object members after the first; each is inserted into the `BTreeMap`. -/
def parseObjRest : Nat → List (String × Json) → List Char →
    Option (List (String × Json) × List Char)
  | 0, _, _ => none
  | fuel + 1, acc, cs =>
    match dropWs cs with
    | [] => none
    | c :: rest =>
      if c = ',' then
        match parseMember fuel rest with
        | none => none
        | some ((k, v), r2) => parseObjRest fuel (mapInsert k v acc) r2
      else if c = rbrace then some (acc, rest)
      else none

end

/-- `serde_json::from_str::<Value>`: parse one value, allow trailing
whitespace, reject trailing characters. -/
def parseJson (s : String) : Option Json :=
  match parseVal (s.data.length + 1) s.data with
  | none => none
  | some (v, rest) => if dropWs rest = [] then some v else none

/-! ## Model of `post_query` and `main`

`post_query` (src/ebay_api.rs lines 137-161) builds one GET request from the
configuration, hands it to the transport (`reqwest`), and handles the
response.  The transport is a parameter here; `Except.error` is a
`reqwest::Error` surfaced by the `?` operators.  The two `.expect` calls are
modelled by `RunResult.panicked`: `serde_json::to_string_pretty` cannot fail
on a `Value`, so only the parse `.expect("failed to parse json")` is
reachable. -/

/-- The single GET request `post_query` issues: url, headers and query
parameters, taken from the configuration. -/
structure Request where
  url : String
  headers : List (String × String)
  params : List (String × Json)
  deriving Repr

/-- A transport-level HTTP response: status code and body text. -/
structure Response where
  status : Nat
  body : String
  deriving Repr

/-- How a run of `post_query` ends: `Ok(())`, an early return with a
`reqwest::Error` (the `?` operators), or a process-terminating panic (the
`.expect` calls). -/
inductive RunResult where
  | ok : RunResult
  | transportErr (e : String) : RunResult
  | panicked (msg : String) : RunResult
  deriving Repr, DecidableEq

/-- The request assembled by `client.get(..).headers(..).query(..)`. -/
def requestOf (config : SearchConfig) : Request :=
  { url := config.search_url
    headers := config.headers
    params := config.search_parameters }

/-- `http::StatusCode::is_success`: `200..=299`. -/
def statusIsSuccess (s : Nat) : Bool := 200 ≤ s && s < 300

/-- `http::StatusCode::canonical_reason`, restricted to the registered codes
this client can meet in practice; unregistered codes yield `none` exactly as
in the `http` crate. -/
def canonicalReason (s : Nat) : Option String :=
  if s = 200 then some "OK"
  else if s = 201 then some "Created"
  else if s = 204 then some "No Content"
  else if s = 301 then some "Moved Permanently"
  else if s = 302 then some "Found"
  else if s = 304 then some "Not Modified"
  else if s = 400 then some "Bad Request"
  else if s = 401 then some "Unauthorized"
  else if s = 403 then some "Forbidden"
  else if s = 404 then some "Not Found"
  else if s = 405 then some "Method Not Allowed"
  else if s = 409 then some "Conflict"
  else if s = 429 then some "Too Many Requests"
  else if s = 500 then some "Internal Server Error"
  else if s = 502 then some "Bad Gateway"
  else if s = 503 then some "Service Unavailable"
  else none

/-- `Display` of `http::StatusCode`: the decimal code, a space, then the
canonical reason (or a fixed placeholder). -/
def statusDisplay (s : Nat) : String :=
  Nat.repr s ++ (" " ++ (canonicalReason s).getD "<unknown status code>")

/-- Response handling of `post_query` (the code after `send().await?`): on a
2xx status parse the body and print it pretty-printed, else print the status
line; a body that does not parse panics the process. -/
def handleResponse : Except String Response → List String × RunResult
  | .error e => ([], .transportErr e)
  | .ok resp =>
    if statusIsSuccess resp.status then
      match parseJson resp.body with
      | none => ([], .panicked "failed to parse json")
      | some v => (["Response body: " ++ pretty v], .ok)
    else
      (["Request failed with status code: " ++ statusDisplay resp.status], .ok)

/-- `post_query` (src/ebay_api.rs lines 137-161): issue the request built from
the configuration and handle the response.  Returns the console lines printed
and how the run ended. -/
def post_query (config : SearchConfig) (transport : Request → Except String Response) :
    List String × RunResult :=
  handleResponse (transport (requestOf config))

/-- World state for running `post_query` repeatedly: a call counter (so a stub
*could* answer differently per call) and the accumulated console. -/
structure ExecWorld where
  calls : Nat
  console : List String
  deriving Repr

/-- One invocation of `post_query` in a sequential world: the transport sees
the call index, the console grows by the lines printed. -/
def post_query_seq (config : SearchConfig)
    (transport : Nat → Request → Except String Response) (w : ExecWorld) :
    ExecWorld × RunResult :=
  let res := handleResponse (transport w.calls (requestOf config))
  (⟨w.calls + 1, w.console ++ res.1⟩, res.2)

/-- The nested `api_keys.ebay` value read from `config.toml`
(src/main.rs lines 9-17). -/
structure ApiKeys where
  ebay : String
  deriving Repr

/-- `main` (src/main.rs lines 26-49).  The config-file read is a parameter
(its `Err` display string on failure).  Returns the console lines, the
requests issued to the network, and `some` run result when `post_query` ran
(`none` when `main` returned early on a config error, or when
`SearchConfig::new` panicked). -/
def main_model (configRead : Except String ApiKeys)
    (transport : Request → Except String Response) :
    List String × List Request × Option RunResult :=
  match configRead with
  | .error e => (["Error reading configuration: " ++ e], [], none)
  | .ok keys =>
    match SearchConfig.new (Json.str "laptop") keys.ebay with
    | none => ([], [], none)
    | some config =>
      let pr := post_query config transport
      (pr.1, [requestOf config], some pr.2)

/-- `pat` occurs as a contiguous substring of `s`. -/
def strContains (s pat : String) : Prop := pat.data <:+: s.data

/-- A fixed well-formed configuration (the value `SearchConfig::new` builds
for query `"laptop"` and token `"tok"`), reused by concrete instantiations. -/
def sampleConfig : SearchConfig :=
  { app_id := "AdamCarr-mtgcardf-SBX-3ac219c73-c36c6538"
    cert_id := "SBX-ac219c739b47-816b-43f8-964f-6b1a"
    search_url := "https://api.sandbox.ebay.com/buy/browse/v1/item_summary/search"
    headers := [("content-type", "application/json"), ("authorization", "Bearer tok")]
    search_parameters := [("limit", Json.str "5"), ("q", Json.str "laptop")] }

/-- A token is syntactically valid when every character may appear in an HTTP
header value. -/
def tokenValid (tok : String) : Prop :=
  tok.data.all headerCharValid = true

/-! ## Measures and canonical forms for the round-trip proof -/

mutual

/-- Fuel measure of a value: enough `parseVal` fuel to re-read its printed
form. -/
def sizeJ : Json → Nat
  | .arr xs => 1 + sizeLA xs
  | .obj kvs => 1 + sizeLO kvs
  | _ => 1

/-- Fuel measure of an array tail. -/
def sizeLA : List Json → Nat
  | [] => 1
  | x :: xs => 1 + sizeJ x + sizeLA xs

/-- Fuel measure of an object tail. -/
def sizeLO : List (String × Json) → Nat
  | [] => 1
  | (_, v) :: kvs => 2 + sizeJ v + sizeLO kvs

end

/-- The first key (if any) is above `k` in the `BTreeMap` order. -/
def headKeyLt (k : String) : List (String × Json) → Prop
  | [] => True
  | p :: _ => strLt k p.1 = true

/-- Keys strictly increasing, the shape of a `BTreeMap`'s entry list. -/
def KeysSorted : List (String × Json) → Prop
  | [] => True
  | p :: l => headKeyLt p.1 l ∧ KeysSorted l

mutual

/-- A value as the parser produces it: every object's entry list is strictly
sorted by key. -/
def Canon : Json → Prop
  | .arr xs => CanonL xs
  | .obj kvs => KeysSorted kvs ∧ CanonLO kvs
  | _ => True

/-- Canonicity through an array. -/
def CanonL : List Json → Prop
  | [] => True
  | x :: xs => Canon x ∧ CanonL xs

/-- Canonicity of the values of an object. -/
def CanonLO : List (String × Json) → Prop
  | [] => True
  | (_, v) :: kvs => Canon v ∧ CanonLO kvs

end

/-- Input on which a maximal-munch integer literal can stop: empty, or headed
by a non-digit. -/
def notDigitStart : List Char → Bool
  | [] => true
  | c :: _ => !isDigitChar c

theorem bearer_valid (tok : String) :
    ("Bearer " ++ tok).data.all headerCharValid = tok.data.all headerCharValid := by
  rw [String.data_append, List.all_append]
  rfl

theorem new_eq_of_tokenValid (query : Json) (tok : String) (h : tokenValid tok) :
    SearchConfig.new query tok =
      some
        { app_id := "AdamCarr-mtgcardf-SBX-3ac219c73-c36c6538"
          cert_id := "SBX-ac219c739b47-816b-43f8-964f-6b1a"
          search_url := "https://api.sandbox.ebay.com/buy/browse/v1/item_summary/search"
          headers := [("content-type", "application/json"),
                      ("authorization", "Bearer " ++ tok)]
          search_parameters := mapInsert "limit" (Json.str "5") (mapInsert "q" query []) } := by
  unfold SearchConfig.new headerValueFromStr
  rw [bearer_valid, h]
  rfl

/-- Inversion for `SearchConfig::new`: a successful construction yields exactly
the record built by the source code, with the authorization value
`"Bearer " ++ tok`. -/
theorem new_inv (query : Json) (tok : String) (cfg : SearchConfig)
    (h : SearchConfig.new query tok = some cfg) :
    cfg =
      { app_id := "AdamCarr-mtgcardf-SBX-3ac219c73-c36c6538"
        cert_id := "SBX-ac219c739b47-816b-43f8-964f-6b1a"
        search_url := "https://api.sandbox.ebay.com/buy/browse/v1/item_summary/search"
        headers := [("content-type", "application/json"),
                    ("authorization", "Bearer " ++ tok)]
        search_parameters := mapInsert "limit" (Json.str "5") (mapInsert "q" query []) } := by
  unfold SearchConfig.new at h
  cases hv : headerValueFromStr ("Bearer " ++ tok) with
  | none => rw [hv] at h; cases h
  | some auth =>
    rw [hv] at h
    have hauth : auth = "Bearer " ++ tok := by
      unfold headerValueFromStr at hv
      split at hv
      · exact (Option.some.inj hv).symm
      · cases hv
    cases h
    rw [hauth]

theorem params_eq (query : Json) :
    mapInsert "limit" (Json.str "5") (mapInsert "q" query []) =
      [("limit", Json.str "5"), ("q", query)] := by
  show mapInsert "limit" (Json.str "5") [("q", query)] = _
  simp only [mapInsert]
  rw [if_pos (by decide : strLt "limit" "q" = true)]

end EbayApi

namespace EbayApi

/-- **C1.** For every non-empty search text and syntactically valid access
token, `SearchConfig::new` returns a configuration whose header map contains
exactly the two entries `Content-Type: application/json` and the Authorization
header, and whose query-parameter map contains exactly the keys `q` and
`limit`, with `limit` fixed to the documented constant 5. -/
theorem c1_new_header_and_param_shape (s tok : String) (hs : s ≠ "") (ht : tokenValid tok) :
    ∃ cfg, SearchConfig.new (Json.str s) tok = some cfg ∧
      cfg.headers = [("content-type", "application/json"),
                     ("authorization", "Bearer " ++ tok)] ∧
      cfg.search_parameters = [("limit", Json.str "5"), ("q", Json.str s)] := by
  refine ⟨_, new_eq_of_tokenValid (Json.str s) tok ht, rfl, ?_⟩
  show mapInsert "limit" (Json.str "5") [("q", Json.str s)] = _
  simp only [mapInsert]
  rw [if_pos (by decide : strLt "limit" "q" = true)]

theorem c1_new_header_and_param_shape_witness :
    "laptop" ≠ "" ∧
    ∃ cfg, SearchConfig.new (Json.str "laptop") "tok-123" = some cfg ∧
      cfg.headers = [("content-type", "application/json"),
                     ("authorization", "Bearer tok-123")] ∧
      cfg.search_parameters = [("limit", Json.str "5"), ("q", Json.str "laptop")] :=
  ⟨by decide, c1_new_header_and_param_shape "laptop" "tok-123" (by decide)
    (by unfold tokenValid; decide)⟩

/-- **C2.** For every access token accepted by `SearchConfig::new`, the value
stored under the Authorization header equals the literal string `"Bearer "`
concatenated with the exact token passed in. -/
theorem c2_authorization_header_value (query : Json) (tok : String) (cfg : SearchConfig)
    (h : SearchConfig.new query tok = some cfg) :
    cfg.headers.lookup "authorization" = some ("Bearer " ++ tok) := by
  rw [new_inv query tok cfg h]
  simp [List.lookup]

theorem c2_authorization_header_value_witness :
    ∃ cfg, SearchConfig.new (Json.str "laptop") "my-token" = some cfg ∧
      cfg.headers.lookup "authorization" = some "Bearer my-token" := by
  have h := new_eq_of_tokenValid (Json.str "laptop") "my-token" (by unfold tokenValid; decide)
  exact ⟨_, h, c2_authorization_header_value (Json.str "laptop") "my-token" _ h⟩

/-- **C5.** `SearchConfig::new` fails only if header-value construction rejects
malformed characters in the token: construction returns `none` (the panic of
the `.unwrap()`) exactly when the token has a character invalid in an HTTP
header value; for every token of valid characters, construction succeeds. -/
theorem c5_new_fails_iff_invalid_token (query : Json) (tok : String) :
    SearchConfig.new query tok = none ↔ ¬ tokenValid tok := by
  unfold SearchConfig.new headerValueFromStr tokenValid
  rw [bearer_valid]
  cases h : tok.data.all headerCharValid <;> simp [h]

/-- **C10.** `SearchConfig::new` stores the caller-supplied query value
unchanged under key `q` and stores the JSON *string* `"5"` (not the JSON
number `5`) under key `limit`; both values are independent of the token. -/
theorem c10_query_params_values (query : Json) (t₁ t₂ : String) (cfg₁ cfg₂ : SearchConfig)
    (h₁ : SearchConfig.new query t₁ = some cfg₁)
    (h₂ : SearchConfig.new query t₂ = some cfg₂) :
    cfg₁.search_parameters.lookup "q" = some query ∧
    cfg₁.search_parameters.lookup "limit" = some (Json.str "5") ∧
    Json.str "5" ≠ Json.num 5 ∧
    cfg₁.search_parameters = cfg₂.search_parameters := by
  rw [new_inv query t₁ cfg₁ h₁, new_inv query t₂ cfg₂ h₂]
  refine ⟨?_, ?_, fun h => Json.noConfusion h, rfl⟩ <;>
    simp [params_eq, List.lookup]

theorem c10_query_params_values_witness :
    ∃ cfg₁ cfg₂, SearchConfig.new (Json.str "laptop") "tokA" = some cfg₁ ∧
      SearchConfig.new (Json.str "laptop") "tokB" = some cfg₂ ∧
      cfg₁.search_parameters.lookup "q" = some (Json.str "laptop") ∧
      cfg₁.search_parameters.lookup "limit" = some (Json.str "5") ∧
      Json.str "5" ≠ Json.num 5 ∧
      cfg₁.search_parameters = cfg₂.search_parameters := by
  have h₁ := new_eq_of_tokenValid (Json.str "laptop") "tokA" (by unfold tokenValid; decide)
  have h₂ := new_eq_of_tokenValid (Json.str "laptop") "tokB" (by unfold tokenValid; decide)
  exact ⟨_, _, h₁, h₂, c10_query_params_values (Json.str "laptop") "tokA" "tokB" _ _ h₁ h₂⟩

/-- A string occurs in the middle of a concatenation. -/
theorem contains_mid (a b c : String) : strContains (a ++ (b ++ c)) b := by
  refine ⟨a.data, c.data, ?_⟩
  simp [strContains, String.data_append]

/-- **C3, counterexample.** At the concrete input — transport answering HTTP
200 with body `"not json"` — `post_query` does *not* return a typed decode
error: it panics (the `.expect("failed to parse json")`), terminating the
process.  This refutes the claim as stated. -/
theorem c3_decode_error_counterexample :
    post_query sampleConfig (fun _ => Except.ok ⟨200, "not json"⟩) =
      ([], RunResult.panicked "failed to parse json") := rfl

/-- **C3, amended.** For every transport response with a 2xx status whose body
does not parse as JSON, `post_query` panics with message
`failed to parse json` — terminating the process with no output — instead of
returning a typed decode error. -/
theorem c3_unparsable_body_panics (c : SearchConfig) (t : Request → Except String Response)
    (resp : Response) (ht : t (requestOf c) = Except.ok resp)
    (hs : statusIsSuccess resp.status = true) (hb : parseJson resp.body = none) :
    post_query c t = ([], RunResult.panicked "failed to parse json") := by
  show handleResponse (t (requestOf c)) = _
  rw [ht]
  simp [handleResponse, hs, hb]

theorem c3_unparsable_body_panics_witness :
    post_query sampleConfig (fun _ => Except.ok ⟨200, "not json"⟩) =
      ([], RunResult.panicked "failed to parse json") :=
  c3_unparsable_body_panics sampleConfig _ ⟨200, "not json"⟩ rfl rfl rfl

/-- **C4.** For every transport response with a non-2xx HTTP status,
`post_query` completes without an execution error (its result is `Ok`) and its
console output is the single status line, which contains the numeric status
code as a substring. -/
theorem c4_non_success_is_ok_and_prints_status (c : SearchConfig)
    (t : Request → Except String Response) (resp : Response)
    (ht : t (requestOf c) = Except.ok resp)
    (hs : statusIsSuccess resp.status = false) :
    (post_query c t).2 = RunResult.ok ∧
    (post_query c t).1 =
      ["Request failed with status code: " ++ statusDisplay resp.status] ∧
    strContains ("Request failed with status code: " ++ statusDisplay resp.status)
      (Nat.repr resp.status) := by
  have hpq : post_query c t =
      (["Request failed with status code: " ++ statusDisplay resp.status], RunResult.ok) := by
    show handleResponse (t (requestOf c)) = _
    rw [ht]
    simp [handleResponse, hs]
  exact ⟨by rw [hpq], by rw [hpq], contains_mid _ _ _⟩

theorem c4_non_success_is_ok_and_prints_status_witness :
    (post_query sampleConfig (fun _ => Except.ok ⟨404, ""⟩)).2 = RunResult.ok ∧
    (post_query sampleConfig (fun _ => Except.ok ⟨404, ""⟩)).1 =
      ["Request failed with status code: " ++ statusDisplay 404] ∧
    strContains ("Request failed with status code: " ++ statusDisplay 404)
      (Nat.repr 404) :=
  c4_non_success_is_ok_and_prints_status sampleConfig _ ⟨404, ""⟩ rfl rfl

/-- **C7.** `post_query` is deterministic and carries no hidden state: run
twice in sequence against the same deterministic transport, the second run
ends the same way and prints the same new console lines as the first. -/
theorem c7_deterministic_no_hidden_state (c : SearchConfig)
    (t : Nat → Request → Except String Response)
    (hdet : ∀ i j req, t i req = t j req) (w0 : ExecWorld) :
    (post_query_seq c t w0).2 = (post_query_seq c t (post_query_seq c t w0).1).2 ∧
    (post_query_seq c t w0).1.console.drop w0.console.length =
      (post_query_seq c t (post_query_seq c t w0).1).1.console.drop
        (post_query_seq c t w0).1.console.length := by
  have hXY : handleResponse (t (w0.calls + 1) (requestOf c)) =
      handleResponse (t w0.calls (requestOf c)) := by
    rw [hdet (w0.calls + 1) w0.calls (requestOf c)]
  constructor
  · show (handleResponse (t w0.calls (requestOf c))).2 =
      (handleResponse (t (w0.calls + 1) (requestOf c))).2
    rw [hXY]
  · show (w0.console ++ (handleResponse (t w0.calls (requestOf c))).1).drop
        w0.console.length =
      ((w0.console ++ (handleResponse (t w0.calls (requestOf c))).1) ++
        (handleResponse (t (w0.calls + 1) (requestOf c))).1).drop
        (w0.console ++ (handleResponse (t w0.calls (requestOf c))).1).length
    rw [hXY, List.drop_left, List.drop_left]

theorem c7_deterministic_no_hidden_state_witness :
    (post_query_seq sampleConfig (fun _ _ => Except.ok ⟨200, "null"⟩) ⟨0, []⟩).2 =
      (post_query_seq sampleConfig (fun _ _ => Except.ok ⟨200, "null"⟩)
        (post_query_seq sampleConfig (fun _ _ => Except.ok ⟨200, "null"⟩) ⟨0, []⟩).1).2 ∧
    (post_query_seq sampleConfig (fun _ _ => Except.ok ⟨200, "null"⟩) ⟨0, []⟩).1.console.drop
        (ExecWorld.mk 0 []).console.length =
      (post_query_seq sampleConfig (fun _ _ => Except.ok ⟨200, "null"⟩)
        (post_query_seq sampleConfig (fun _ _ => Except.ok ⟨200, "null"⟩) ⟨0, []⟩).1).1.console.drop
        (post_query_seq sampleConfig (fun _ _ => Except.ok ⟨200, "null"⟩) ⟨0, []⟩).1.console.length :=
  c7_deterministic_no_hidden_state sampleConfig (fun _ _ => Except.ok ⟨200, "null"⟩)
    (fun _ _ _ => rfl) ⟨0, []⟩

/-- **C8.** A configuration is never mutated by `post_query`: the request it
issues carries the configuration's `search_url`, `headers` and
`search_parameters` unchanged, the configuration is exactly its five fields
(nothing hidden that could change), and the whole run factors through the
transport applied to that request — the embedding of the Rust code has no
mutation of `config` anywhere. -/
theorem c8_config_never_mutated (c : SearchConfig) (t : Request → Except String Response) :
    (requestOf c).url = c.search_url ∧
    (requestOf c).headers = c.headers ∧
    (requestOf c).params = c.search_parameters ∧
    c = ⟨c.app_id, c.cert_id, c.search_url, c.headers, c.search_parameters⟩ ∧
    post_query c t = handleResponse (t (requestOf c)) :=
  ⟨rfl, rfl, rfl, rfl, rfl⟩

/-! ### Order facts for the `BTreeMap` key order -/

theorem char_eq_of_toNat_eq (a b : Char) (h : a.toNat = b.toNat) : a = b :=
  Char.ext (UInt32.ext h)

theorem charListLt_irrefl (as : List Char) : charListLt as as = false := by
  induction as with
  | nil => rfl
  | cons a as ih => simp [charListLt, ih]

theorem charListLt_asymm (as : List Char) :
    ∀ bs, charListLt as bs = true → charListLt bs as = false := by
  induction as with
  | nil =>
    intro bs h
    cases bs with
    | nil => simp [charListLt] at h
    | cons b bs => simp [charListLt]
  | cons a as ih =>
    intro bs h
    cases bs with
    | nil => simp [charListLt] at h
    | cons b bs =>
      rw [charListLt] at h ⊢
      split at h
      · rename_i h1
        rw [if_neg (by omega), if_pos (by omega)]
      · split at h
        · cases h
        · rename_i h1 h2
          rw [if_neg (by omega), if_neg (by omega)]
          exact ih bs h

theorem charListLt_eq_of_not_lt (as : List Char) :
    ∀ bs, charListLt as bs = false → charListLt bs as = false → as = bs := by
  induction as with
  | nil =>
    intro bs h1 _
    cases bs with
    | nil => rfl
    | cons b bs => simp [charListLt] at h1
  | cons a as ih =>
    intro bs h1 h2
    cases bs with
    | nil => simp [charListLt] at h2
    | cons b bs =>
      rw [charListLt] at h1 h2
      split at h1
      · cases h1
      · split at h1
        · rename_i hab hba
          rw [if_pos hba] at h2
          cases h2
        · rename_i hab hba
          have hc : a = b := char_eq_of_toNat_eq a b (by omega)
          subst hc
          rw [if_neg hab, if_neg hba] at h2
          rw [ih bs h1 h2]

theorem charListLt_trans (as : List Char) :
    ∀ bs cs, charListLt as bs = true → charListLt bs cs = true →
      charListLt as cs = true := by
  induction as with
  | nil =>
    intro bs cs h1 h2
    cases bs with
    | nil => simp [charListLt] at h1
    | cons b bs =>
      cases cs with
      | nil => simp [charListLt] at h2
      | cons c cs => simp [charListLt]
  | cons a as ih =>
    intro bs cs h1 h2
    cases bs with
    | nil => simp [charListLt] at h1
    | cons b bs =>
      cases cs with
      | nil => simp [charListLt] at h2
      | cons c cs =>
        rw [charListLt] at h1 h2 ⊢
        split at h1
        · rename_i hab
          split at h2
          · rename_i hbc
            rw [if_pos (by omega)]
          · split at h2
            · cases h2
            · rename_i hbc hcb
              rw [if_pos (by omega)]
        · split at h1
          · cases h1
          · rename_i hab hba
            split at h2
            · rename_i hbc
              rw [if_pos (by omega)]
            · split at h2
              · cases h2
              · rename_i hbc hcb
                rw [if_neg (by omega), if_neg (by omega)]
                exact ih bs cs h1 h2

theorem strLt_irrefl (a : String) : strLt a a = false := charListLt_irrefl a.data

theorem strLt_asymm {a b : String} (h : strLt a b = true) : strLt b a = false :=
  charListLt_asymm a.data b.data h

theorem str_eq_of_not_lt (a b : String) (h1 : strLt a b = false)
    (h2 : strLt b a = false) : a = b :=
  String.ext (charListLt_eq_of_not_lt a.data b.data h1 h2)

theorem strLt_trans (a b c : String) (h1 : strLt a b = true)
    (h2 : strLt b c = true) : strLt a c = true :=
  charListLt_trans a.data b.data c.data h1 h2

theorem strLt_ne {a b : String} (h : strLt a b = true) : a ≠ b := by
  intro he
  subst he
  rw [strLt_irrefl] at h
  cases h

/-! ### `mapInsert` and sortedness -/

theorem headKeyLt_mapInsert (k₁ k : String) (v : Json) (l : List (String × Json))
    (h1 : strLt k₁ k = true) (h2 : headKeyLt k₁ l) :
    headKeyLt k₁ (mapInsert k v l) := by
  cases l with
  | nil => simpa [mapInsert, headKeyLt] using h1
  | cons p l' =>
    obtain ⟨k₂, v₂⟩ := p
    rw [mapInsert]
    split
    · simpa [headKeyLt] using h1
    · split
      · simpa [headKeyLt] using h1
      · simpa [headKeyLt] using h2

theorem keysSorted_mapInsert (k : String) (v : Json) (l : List (String × Json))
    (h : KeysSorted l) : KeysSorted (mapInsert k v l) := by
  induction l with
  | nil => simp [mapInsert, KeysSorted, headKeyLt]
  | cons p l ih =>
    obtain ⟨k₁, v₁⟩ := p
    rw [KeysSorted] at h
    rw [mapInsert]
    split
    · rename_i hlt
      rw [KeysSorted]
      refine ⟨by simpa [headKeyLt] using hlt, ?_⟩
      rw [KeysSorted]
      exact h
    · split
      · rename_i hnlt heq
        subst heq
        rw [KeysSorted]
        exact h
      · rename_i hnlt hne
        have hk₁k : strLt k₁ k = true := by
          cases hlt' : strLt k₁ k with
          | true => rfl
          | false =>
            exact absurd (str_eq_of_not_lt k k₁ (by simpa using hnlt) hlt') hne
        rw [KeysSorted]
        exact ⟨headKeyLt_mapInsert k₁ k v l hk₁k h.1, ih h.2⟩

theorem sorted_prefix_lt (k : String) (v : Json) (rem : List (String × Json)) :
    ∀ acc, KeysSorted (acc ++ (k, v) :: rem) → ∀ p ∈ acc, strLt p.1 k = true := by
  intro acc
  induction acc with
  | nil => intro _ p hp; cases hp
  | cons a acc' ih =>
    intro h p hp
    rw [List.cons_append, KeysSorted] at h
    rcases List.mem_cons.mp hp with rfl | hp'
    · cases acc' with
      | nil => simpa [headKeyLt] using h.1
      | cons b acc'' =>
        have hab : strLt p.1 b.1 = true := by simpa [headKeyLt] using h.1
        have hbk : strLt b.1 k = true := ih h.2 b (by simp)
        exact strLt_trans _ _ _ hab hbk
    · exact ih h.2 p hp'

theorem mapInsert_append (k : String) (v : Json) :
    ∀ acc, (∀ p ∈ acc, strLt p.1 k = true) → mapInsert k v acc = acc ++ [(k, v)] := by
  intro acc
  induction acc with
  | nil => intro _; rfl
  | cons a acc' ih =>
    intro h
    obtain ⟨k', v'⟩ := a
    have hk'k : strLt k' k = true := h (k', v') (by simp)
    rw [mapInsert, if_neg, if_neg]
    · rw [ih (fun p hp => h p (by simp [hp]))]
      simp
    · intro he
      exact strLt_ne hk'k he.symm
    · simp [strLt_asymm hk'k]

/-! ### Decimal printing round-trips through the number parser -/

theorem isDigitChar_decDigitChar (d : Nat) (h : d < 10) :
    isDigitChar (decDigitChar d) = true := by
  interval_cases d <;> decide

theorem toNat_decDigitChar (d : Nat) (h : d < 10) : (decDigitChar d).toNat = 48 + d := by
  interval_cases d <;> decide

theorem decDigitChar_ne_zero (d : Nat) (h1 : d < 10) (h2 : d ≠ 0) :
    decDigitChar d ≠ '0' := by
  interval_cases d
  · exact absurd rfl h2
  all_goals decide

theorem hexVal_decDigitChar (d : Nat) (h : d < 10) : hexVal? (decDigitChar d) = some d := by
  interval_cases d <;> decide

theorem hexVal_letter (d : Nat) (h1 : 10 ≤ d) (h2 : d < 16) :
    hexVal? (Char.ofNat (87 + d)) = some d := by
  interval_cases d <;> decide

theorem char_ne_of_digit (c t : Char) (h : isDigitChar c = true)
    (ht : t.toNat < 48 ∨ 57 < t.toNat) : c ≠ t := by
  intro he
  subst he
  simp [isDigitChar] at h
  omega

theorem wsChar_false_of_digit (c : Char) (h : isDigitChar c = true) : wsChar c = false := by
  simp only [wsChar, Bool.or_eq_false_iff]
  refine ⟨⟨⟨?_, ?_⟩, ?_⟩, ?_⟩ <;>
    simp only [beq_eq_false_iff_ne] <;>
    exact char_ne_of_digit c _ h (by decide)

theorem natToChars_zero (fuel : Nat) (acc : List Char) : natToChars fuel 0 acc = acc := by
  cases fuel <;> simp [natToChars]

theorem natToChars_acc (fuel : Nat) :
    ∀ n acc, natToChars fuel n acc = natToChars fuel n [] ++ acc := by
  induction fuel with
  | zero => intro n acc; rfl
  | succ f ih =>
    intro n acc
    by_cases h : n = 0
    · simp [natToChars, h]
    · rw [natToChars, if_neg h, natToChars, if_neg h]
      rw [ih (n / 10) (decDigitChar (n % 10) :: acc), ih (n / 10) [decDigitChar (n % 10)]]
      simp

theorem natToChars_val (fuel : Nat) : ∀ n, n ≤ fuel →
    (natToChars fuel n []).foldl (fun a c => a * 10 + (c.toNat - 48)) 0 = n := by
  induction fuel with
  | zero =>
    intro n h
    interval_cases n
    rfl
  | succ f ih =>
    intro n h
    by_cases h0 : n = 0
    · subst h0
      simp [natToChars]
    · rw [natToChars, if_neg h0, natToChars_acc, List.foldl_append]
      have hlt : n / 10 < n := Nat.div_lt_self (by omega) (by norm_num)
      rw [ih (n / 10) (by omega)]
      simp [toNat_decDigitChar _ (Nat.mod_lt n (by norm_num))]
      omega

theorem natToChars_all_digits (fuel : Nat) :
    ∀ n acc, (∀ c ∈ acc, isDigitChar c = true) →
      ∀ c ∈ natToChars fuel n acc, isDigitChar c = true := by
  induction fuel with
  | zero => intro n acc hacc; exact hacc
  | succ f ih =>
    intro n acc hacc
    by_cases h0 : n = 0
    · simpa [natToChars, h0] using hacc
    · rw [natToChars, if_neg h0]
      refine ih (n / 10) _ ?_
      intro c hc
      rcases List.mem_cons.mp hc with rfl | hc'
      · exact isDigitChar_decDigitChar _ (Nat.mod_lt n (by norm_num))
      · exact hacc c hc'

theorem natToChars_head (fuel : Nat) : ∀ n acc, 1 ≤ n → n ≤ fuel →
    ∃ c cs, natToChars fuel n acc = c :: cs ∧ isDigitChar c = true ∧ c ≠ '0' := by
  induction fuel with
  | zero => intro n acc h1 h2; omega
  | succ f ih =>
    intro n acc h1 h2
    rw [natToChars, if_neg (by omega)]
    by_cases h10 : n / 10 = 0
    · rw [h10, natToChars_zero]
      exact ⟨_, _, rfl, isDigitChar_decDigitChar _ (Nat.mod_lt _ (by norm_num)),
        decDigitChar_ne_zero _ (Nat.mod_lt _ (by norm_num))
          (by omega)⟩
    · have hlt : n / 10 < n := Nat.div_lt_self (by omega) (by norm_num)
      exact ih (n / 10) _ (by omega) (by omega)

theorem printNat_digits (n : Nat) : ∀ c ∈ printNat n, isDigitChar c = true := by
  rw [printNat]
  by_cases h : n = 0
  · rw [if_pos h]
    intro c hc
    rw [List.mem_singleton.mp hc]
    decide
  · rw [if_neg h]
    exact natToChars_all_digits n n [] (by simp)

theorem printNat_head (n : Nat) :
    ∃ c cs, printNat n = c :: cs ∧ isDigitChar c = true := by
  rw [printNat]
  by_cases h : n = 0
  · exact ⟨'0', [], by rw [if_pos h], by decide⟩
  · rw [if_neg h]
    obtain ⟨c, cs, he, hd, _⟩ := natToChars_head n n [] (by omega) (le_refl n)
    exact ⟨c, cs, he, hd⟩

theorem printNat_val (n : Nat) :
    (printNat n).foldl (fun a c => a * 10 + (c.toNat - 48)) 0 = n := by
  rw [printNat]
  by_cases h : n = 0
  · rw [if_pos h, h]
    decide
  · rw [if_neg h]
    exact natToChars_val n n (le_refl n)

theorem takeWhile_digits (ds r : List Char) (h1 : ∀ c ∈ ds, isDigitChar c = true)
    (h2 : notDigitStart r = true) :
    (ds ++ r).takeWhile isDigitChar = ds ∧ (ds ++ r).dropWhile isDigitChar = r := by
  induction ds with
  | nil =>
    cases r with
    | nil => exact ⟨rfl, rfl⟩
    | cons c cs =>
      have hc : isDigitChar c = false := by simpa [notDigitStart] using h2
      simp [List.takeWhile_cons, List.dropWhile_cons, hc]
  | cons d ds ih =>
    have hd : isDigitChar d = true := h1 d (by simp)
    have hih := ih (fun c hc => h1 c (by simp [hc]))
    constructor <;>
      simp [List.takeWhile_cons, List.dropWhile_cons, hd, hih.1, hih.2]

theorem parseNatNum_printNat (n : Nat) (rest : List Char)
    (hr : notDigitStart rest = true) :
    parseNatNum (printNat n ++ rest) = some (n, rest) := by
  by_cases h0 : n = 0
  · subst h0
    show parseNatNum ('0' :: rest) = some (0, rest)
    rw [parseNatNum, if_pos rfl]
  · have hdall := printNat_digits n
    rw [printNat, if_neg h0]
    obtain ⟨c, cs, he, hd, hne0⟩ := natToChars_head n n [] (by omega) (le_refl n)
    rw [he, List.cons_append, parseNatNum, if_neg hne0, if_pos hd]
    have hcs : ∀ x ∈ cs, isDigitChar x = true := by
      intro x hx
      refine hdall x ?_
      rw [printNat, if_neg h0, he]
      simp [hx]
    have htw := takeWhile_digits cs rest hcs hr
    rw [htw.1, htw.2]
    have hval : ((c :: cs).foldl (fun a d => a * 10 + (d.toNat - 48)) 0) = n := by
      have := printNat_val n
      rw [printNat, if_neg h0, he] at this
      exact this
    rw [hval]

theorem parseNumber_printInt (i : Int) (rest : List Char)
    (hr : notDigitStart rest = true) :
    parseNumber (printInt i ++ rest) = some (i, rest) := by
  cases i with
  | ofNat n =>
    show parseNumber (printNat n ++ rest) = some ((n : Int), rest)
    obtain ⟨c, cs, he, hd⟩ := printNat_head n
    have hcm : c ≠ '-' := char_ne_of_digit c '-' hd (by decide)
    rw [he, List.cons_append, parseNumber, if_neg hcm, ← List.cons_append, ← he,
      parseNatNum_printNat n rest hr]
    rfl
  | negSucc m =>
    show parseNumber ('-' :: printNat (m + 1) ++ rest) = some (Int.negSucc m, rest)
    rw [List.cons_append, parseNumber, if_pos rfl, parseNatNum_printNat (m + 1) rest hr]
    simp [Int.negSucc_coe]

/-! ### String escaping round-trips through the string scanner -/

theorem parseStrChars_escapeChar (c : Char) (rest : List Char) :
    parseStrChars (escapeChar c ++ rest) =
      (parseStrChars rest).map (fun p => (c :: p.1, p.2)) := by
  by_cases h1 : c = '"'
  · subst h1; rw [parseStrChars.eq_def]; rfl
  by_cases h2 : c = '\\'
  · subst h2; rw [parseStrChars.eq_def]; rfl
  by_cases h3 : c = '\x08'
  · subst h3; rw [parseStrChars.eq_def]; rfl
  by_cases h4 : c = '\x0c'
  · subst h4; rw [parseStrChars.eq_def]; rfl
  by_cases h5 : c = '\n'
  · subst h5; rw [parseStrChars.eq_def]; rfl
  by_cases h6 : c = '\r'
  · subst h6; rw [parseStrChars.eq_def]; rfl
  by_cases h7 : c = '\t'
  · subst h7; rw [parseStrChars.eq_def]; rfl
  by_cases h8 : c.toNat < 32
  · rw [escapeChar, if_neg h1, if_neg h2, if_neg h3, if_neg h4, if_neg h5, if_neg h6,
      if_neg h7, if_pos h8]
    rw [if_pos (show c.toNat / 16 < 10 by omega)]
    have e0 : hexVal? '0' = some 0 := by decide
    have ehi : hexVal? (decDigitChar (c.toNat / 16)) = some (c.toNat / 16) :=
      hexVal_decDigitChar _ (by omega)
    have hn1 : ((0 * 16 + 0) * 16 + c.toNat / 16) * 16 + c.toNat % 16 = c.toNat := by omega
    have hn2 : c.toNat / 16 * 16 + c.toNat % 16 = c.toNat := by omega
    by_cases hlo10 : c.toNat % 16 < 10
    · rw [if_pos hlo10]
      have elo : hexVal? (decDigitChar (c.toNat % 16)) = some (c.toNat % 16) :=
        hexVal_decDigitChar _ hlo10
      rw [parseStrChars.eq_def]
      simp [e0, ehi, elo, hn1, hn2, Char.ofNat_toNat, show c.toNat < 55296 by omega]
    · rw [if_neg hlo10]
      have elo : hexVal? (Char.ofNat (87 + c.toNat % 16)) = some (c.toNat % 16) :=
        hexVal_letter _ (by omega) (by omega)
      rw [parseStrChars.eq_def]
      simp [e0, ehi, elo, hn1, hn2, Char.ofNat_toNat, show c.toNat < 55296 by omega]
  · rw [escapeChar, if_neg h1, if_neg h2, if_neg h3, if_neg h4, if_neg h5, if_neg h6,
      if_neg h7, if_neg h8, List.singleton_append, parseStrChars.eq_def]
    simp only []
    rw [if_neg h1, if_neg h2, if_neg h8]

theorem parseStrChars_escape (cs rest : List Char) :
    parseStrChars (cs.flatMap escapeChar ++ '"' :: rest) = some (cs, rest) := by
  induction cs with
  | nil =>
    rw [List.flatMap_nil, List.nil_append, parseStrChars.eq_def]
    rfl
  | cons c cs ih =>
    rw [List.flatMap_cons, List.append_assoc, parseStrChars_escapeChar, ih]
    rfl

/-! ### Whitespace skipping -/

theorem dropWs_append_ws (ws cs : List Char) (h : ∀ c ∈ ws, wsChar c = true) :
    dropWs (ws ++ cs) = dropWs cs := by
  induction ws with
  | nil => rfl
  | cons w ws ih =>
    rw [List.cons_append, dropWs, if_pos (h w (by simp))]
    exact ih (fun c hc => h c (by simp [hc]))

theorem dropWs_not_ws (c : Char) (cs : List Char) (h : wsChar c = false) :
    dropWs (c :: cs) = c :: cs := by
  rw [dropWs, if_neg (by simp [h])]

theorem newlineIndent_ws (d : Nat) : ∀ c ∈ newlineIndent d, wsChar c = true := by
  intro c hc
  rw [newlineIndent] at hc
  rcases List.mem_cons.mp hc with rfl | hr
  · decide
  · rw [List.eq_of_mem_replicate hr]
    decide

theorem string_mk_data (s : String) : String.mk s.data = s := rfl

theorem parseVal_strip_ws (fuel : Nat) (ws cs : List Char) (h : ∀ c ∈ ws, wsChar c = true) :
    parseVal fuel (ws ++ cs) = parseVal fuel cs := by
  cases fuel with
  | zero => rfl
  | succ f => rw [parseVal, parseVal, dropWs_append_ws ws cs h]

/-! ### First characters of printed values -/

theorem notDigitStart_cons (c : Char) (t : List Char) :
    notDigitStart (c :: t) = !isDigitChar c := rfl

theorem printVal_head (d : Nat) (v : Json) :
    ∃ c cs, printVal d v = c :: cs ∧ wsChar c = false ∧ c ≠ ']' ∧ c ≠ rbrace := by
  cases v with
  | null => exact ⟨'n', "ull".data, by simp [printVal], by decide, by decide, by decide⟩
  | bool b =>
    cases b with
    | true => exact ⟨'t', "rue".data, by simp [printVal], by decide, by decide, by decide⟩
    | false => exact ⟨'f', "alse".data, by simp [printVal], by decide, by decide, by decide⟩
  | num i =>
    cases i with
    | ofNat n =>
      obtain ⟨c, cs, he, hd⟩ := printNat_head n
      refine ⟨c, cs, ?_, wsChar_false_of_digit c hd,
        char_ne_of_digit c _ hd (by decide), char_ne_of_digit c _ hd (by decide)⟩
      simp [printVal, printInt, he]
    | negSucc m =>
      exact ⟨'-', printNat (m + 1), by simp [printVal, printInt], by decide, by decide, by decide⟩
  | str s => exact ⟨'"', escapeString s ++ ['"'], by simp [printVal], by decide, by decide, by decide⟩
  | arr xs =>
    cases xs with
    | nil => exact ⟨'[', [']'], by simp [printVal], by decide, by decide, by decide⟩
    | cons x xs =>
      exact ⟨'[', newlineIndent (d + 1) ++ (printVal (d + 1) x ++
        (printArrItems (d + 1) xs ++ (newlineIndent d ++ [']']))),
        by simp [printVal], by decide, by decide, by decide⟩
  | obj kvs =>
    cases kvs with
    | nil => exact ⟨lbrace, [rbrace], by simp [printVal], by decide, by decide, by decide⟩
    | cons kv kvs =>
      obtain ⟨k, v⟩ := kv
      exact ⟨lbrace, newlineIndent (d + 1) ++ (printMember (d + 1) k v ++
        (printObjItems (d + 1) kvs ++ (newlineIndent d ++ [rbrace]))),
        by simp [printVal], by decide, by decide, by decide⟩

/-! ### Size positivity and non-digit heads of printed tails -/

theorem sizeJ_pos (v : Json) : 1 ≤ sizeJ v := by
  cases v <;> simp [sizeJ]

theorem sizeLA_pos (xs : List Json) : 1 ≤ sizeLA xs := by
  cases xs with
  | nil => simp [sizeLA]
  | cons x xs => rw [sizeLA]; omega

theorem sizeLO_pos (kvs : List (String × Json)) : 1 ≤ sizeLO kvs := by
  cases kvs with
  | nil => simp [sizeLO]
  | cons kv kvs => obtain ⟨k, v⟩ := kv; rw [sizeLO]; omega

theorem notDigitStart_newline (d : Nat) (r : List Char) :
    notDigitStart (newlineIndent d ++ r) = true := by
  rw [newlineIndent, List.cons_append, notDigitStart_cons]
  decide

theorem notDigitStart_arrTail (d e : Nat) (xs : List Json) (r : List Char) :
    notDigitStart (printArrItems d xs ++ (newlineIndent e ++ r)) = true := by
  cases xs with
  | nil =>
    rw [printArrItems, List.nil_append]
    exact notDigitStart_newline e r
  | cons x xs =>
    rw [printArrItems, List.cons_append, notDigitStart_cons]
    decide

theorem notDigitStart_objTail (d e : Nat) (kvs : List (String × Json)) (r : List Char) :
    notDigitStart (printObjItems d kvs ++ (newlineIndent e ++ r)) = true := by
  cases kvs with
  | nil =>
    rw [printObjItems, List.nil_append]
    exact notDigitStart_newline e r
  | cons kv kvs =>
    obtain ⟨k, v⟩ := kv
    rw [printObjItems, List.cons_append, notDigitStart_cons]
    decide

theorem printMember_cons (d : Nat) (k : String) (v : Json) :
    printMember d k v = '"' :: (escapeString k ++ ('"' :: ':' :: ' ' :: printVal d v)) := by
  rw [printMember]

/-- Skipping leading whitespace before a member. -/
theorem parseMember_strip_ws (fuel : Nat) (ws cs : List Char)
    (h : ∀ c ∈ ws, wsChar c = true) :
    parseMember fuel (ws ++ cs) = parseMember fuel cs := by
  cases fuel with
  | zero => rfl
  | succ f => rw [parseMember, parseMember, dropWs_append_ws ws cs h]

/-! ### The printed form of a canonical value parses back to it -/

mutual

theorem parse_print : ∀ (v : Json) (d fuel : Nat) (rest : List Char),
    Canon v → sizeJ v ≤ fuel → notDigitStart rest = true →
    parseVal fuel (printVal d v ++ rest) = some (v, rest)
  | v, d, 0, rest, hc, hf, hr => absurd (le_trans (sizeJ_pos v) hf) (by omega)
  | .null, d, f + 1, rest, hc, hf, hr => by
    rw [printVal, List.cons_append, parseVal, dropWs_not_ws _ _ (by decide)]
    rfl
  | .bool true, d, f + 1, rest, hc, hf, hr => by
    rw [printVal, List.cons_append, parseVal, dropWs_not_ws _ _ (by decide)]
    rfl
  | .bool false, d, f + 1, rest, hc, hf, hr => by
    rw [printVal, List.cons_append, parseVal, dropWs_not_ws _ _ (by decide)]
    rfl
  | .num (Int.ofNat n), d, f + 1, rest, hc, hf, hr => by
    obtain ⟨ch, cs, he, hd⟩ := printNat_head n
    have hpi : printInt (Int.ofNat n) = ch :: cs := by rw [printInt]; exact he
    have hnum : parseNumber (ch :: (cs ++ rest)) = some ((n : Int), rest) := by
      rw [← List.cons_append, ← hpi]
      exact parseNumber_printInt (Int.ofNat n) rest hr
    rw [printVal, hpi, List.cons_append, parseVal,
      dropWs_not_ws _ _ (wsChar_false_of_digit ch hd)]
    simp [char_ne_of_digit ch 'n' hd (by decide), char_ne_of_digit ch 't' hd (by decide),
      char_ne_of_digit ch 'f' hd (by decide), char_ne_of_digit ch '"' hd (by decide),
      char_ne_of_digit ch '[' hd (by decide), char_ne_of_digit ch lbrace hd (by decide),
      hd, hnum]
  | .num (Int.negSucc m), d, f + 1, rest, hc, hf, hr => by
    have hnum : parseNumber ('-' :: (printNat (m + 1) ++ rest)) =
        some (Int.negSucc m, rest) := by
      rw [← List.cons_append]
      exact parseNumber_printInt (Int.negSucc m) rest hr
    rw [printVal, printInt, List.cons_append, parseVal, dropWs_not_ws _ _ (by decide)]
    simp [hnum, show ('-' : Char) ≠ lbrace from by decide]
  | .str s, d, f + 1, rest, hc, hf, hr => by
    have hstr : parseStrChars (escapeString s ++ ('"' :: rest)) =
        some (s.data, rest) := by
      rw [escapeString]
      exact parseStrChars_escape s.data rest
    rw [printVal, List.cons_append, parseVal, dropWs_not_ws _ _ (by decide)]
    simp [hstr, string_mk_data]
  | .arr [], d, f + 1, rest, hc, hf, hr => by
    rw [printVal, List.cons_append, parseVal, dropWs_not_ws _ _ (by decide)]
    rfl
  | .arr (x :: xs), d, f + 1, rest, hc, hf, hr => by
    have hszs : sizeJ (Json.arr (x :: xs)) = 2 + sizeJ x + sizeLA xs := by
      rw [sizeJ, sizeLA]
      omega
    have hszx : sizeJ x ≤ f := by
      have h1 := sizeLA_pos xs
      omega
    have hszxs : sizeLA xs ≤ f := by
      have h1 := sizeJ_pos x
      omega
    obtain ⟨hcx, hcxs⟩ : Canon x ∧ CanonL xs := by simpa [Canon, CanonL] using hc
    obtain ⟨c2, cs2, hpve, hnws, hne1, hne2⟩ := printVal_head (d + 1) x
    rw [printVal, List.cons_append, parseVal, dropWs_not_ws _ _ (by decide)]
    simp only [List.append_assoc, List.singleton_append]
    have hsk : dropWs (newlineIndent (d + 1) ++ (printVal (d + 1) x ++
        (printArrItems (d + 1) xs ++ (newlineIndent d ++ (']' :: rest))))) =
        c2 :: (cs2 ++ (printArrItems (d + 1) xs ++
          (newlineIndent d ++ (']' :: rest)))) := by
      rw [dropWs_append_ws _ _ (newlineIndent_ws (d + 1)), hpve, List.cons_append,
        dropWs_not_ws _ _ hnws]
    have h1 : parseVal f (c2 :: (cs2 ++ (printArrItems (d + 1) xs ++
        (newlineIndent d ++ (']' :: rest))))) =
        some (x, printArrItems (d + 1) xs ++ (newlineIndent d ++ (']' :: rest))) := by
      rw [← List.cons_append, ← hpve]
      exact parse_print x (d + 1) f _ hcx hszx (notDigitStart_arrTail (d + 1) d xs _)
    have h2 : parseArrRest f [x] (printArrItems (d + 1) xs ++
        (newlineIndent d ++ (']' :: rest))) = some ([x] ++ xs, rest) :=
      parse_print_arr xs [x] d f rest hcxs hszxs hr
    simp [hsk, hne1, h1, h2]
  | .obj [], d, f + 1, rest, hc, hf, hr => by
    rw [printVal, List.cons_append, parseVal, dropWs_not_ws _ _ (by decide)]
    rfl
  | .obj ((k, v) :: kvs), d, f + 1, rest, hc, hf, hr => by
    have hszs : sizeJ (Json.obj ((k, v) :: kvs)) = 3 + sizeJ v + sizeLO kvs := by
      rw [sizeJ, sizeLO]
      omega
    have hszv : 1 + sizeJ v ≤ f := by
      have h1 := sizeLO_pos kvs
      omega
    have hszkvs : sizeLO kvs ≤ f := by
      have h1 := sizeJ_pos v
      omega
    have hsp : KeysSorted ((k, v) :: kvs) ∧ CanonLO ((k, v) :: kvs) := by
      simpa [Canon] using hc
    have hsor : KeysSorted ((k, v) :: kvs) := hsp.1
    obtain ⟨hcv, hckvs⟩ : Canon v ∧ CanonLO kvs := by simpa [CanonLO] using hsp.2
    rw [printVal, List.cons_append, parseVal, dropWs_not_ws _ _ (by decide)]
    simp only [List.append_assoc, List.singleton_append]
    have hmnf : printMember (d + 1) k v ++ (printObjItems (d + 1) kvs ++
        (newlineIndent d ++ (rbrace :: rest))) =
        '"' :: (escapeString k ++ ('"' :: ':' :: ' ' :: (printVal (d + 1) v ++
          (printObjItems (d + 1) kvs ++ (newlineIndent d ++ (rbrace :: rest)))))) := by
      rw [printMember_cons]
      simp [List.append_assoc, List.cons_append]
    have hsk : dropWs (newlineIndent (d + 1) ++ (printMember (d + 1) k v ++
        (printObjItems (d + 1) kvs ++ (newlineIndent d ++ (rbrace :: rest))))) =
        '"' :: (escapeString k ++ ('"' :: ':' :: ' ' :: (printVal (d + 1) v ++
          (printObjItems (d + 1) kvs ++ (newlineIndent d ++ (rbrace :: rest)))))) := by
      rw [dropWs_append_ws _ _ (newlineIndent_ws (d + 1)), hmnf,
        dropWs_not_ws _ _ (by decide)]
    have h1 : parseMember f ('"' :: (escapeString k ++ ('"' :: ':' :: ' ' ::
        (printVal (d + 1) v ++ (printObjItems (d + 1) kvs ++
          (newlineIndent d ++ (rbrace :: rest))))))) =
        some ((k, v), printObjItems (d + 1) kvs ++
          (newlineIndent d ++ (rbrace :: rest))) := by
      rw [← hmnf]
      exact parse_print_member k v (d + 1) f _ hcv hszv
        (notDigitStart_objTail (d + 1) d kvs _)
    have h2 : parseObjRest f [(k, v)] (printObjItems (d + 1) kvs ++
        (newlineIndent d ++ (rbrace :: rest))) = some ([(k, v)] ++ kvs, rest) :=
      parse_print_obj kvs [(k, v)] d f rest (by simpa using hsor) hckvs hszkvs hr
    simp [hsk, h1, h2, show mapInsert k v [] = [(k, v)] from rfl,
      show ('"' : Char) ≠ rbrace from by decide,
      show lbrace ≠ 'n' from by decide, show lbrace ≠ 't' from by decide,
      show lbrace ≠ 'f' from by decide, show lbrace ≠ '"' from by decide,
      show lbrace ≠ '[' from by decide]
  termination_by v _ _ _ => sizeJ v
  decreasing_by
    all_goals (try simp only [sizeJ, sizeLA, sizeLO]) <;> omega

theorem parse_print_member : ∀ (k : String) (v : Json) (d fuel : Nat) (rest : List Char),
    Canon v → 1 + sizeJ v ≤ fuel → notDigitStart rest = true →
    parseMember fuel (printMember d k v ++ rest) = some ((k, v), rest)
  | k, v, d, 0, rest, hc, hf, hr => absurd hf (by omega)
  | k, v, d, f + 1, rest, hc, hf, hr => by
    have hstr : parseStrChars (escapeString k ++ ('"' :: ':' :: ' ' ::
        (printVal d v ++ rest))) = some (k.data, ':' :: ' ' :: (printVal d v ++ rest)) := by
      rw [escapeString]
      exact parseStrChars_escape k.data (':' :: ' ' :: (printVal d v ++ rest))
    have h1 : parseVal f (' ' :: (printVal d v ++ rest)) = some (v, rest) := by
      rw [show (' ' :: (printVal d v ++ rest)) = [' '] ++ (printVal d v ++ rest) from rfl,
        parseVal_strip_ws f [' '] _ (by intro c hc2; rw [List.mem_singleton.mp hc2]; decide)]
      exact parse_print v d f rest hc (by omega) hr
    rw [printMember_cons, List.cons_append, parseMember, dropWs_not_ws _ _ (by decide)]
    simp [hstr, h1, dropWs_not_ws _ _ (show wsChar ':' = false by decide), string_mk_data]
  termination_by _ v _ _ _ => 1 + sizeJ v
  decreasing_by
    all_goals (try simp only [sizeJ, sizeLA, sizeLO]) <;> omega

theorem parse_print_arr : ∀ (ys : List Json) (acc : List Json) (d fuel : Nat)
    (rest : List Char), CanonL ys → sizeLA ys ≤ fuel → notDigitStart rest = true →
    parseArrRest fuel acc
        (printArrItems (d + 1) ys ++ (newlineIndent d ++ (']' :: rest))) =
      some (acc ++ ys, rest)
  | ys, acc, d, 0, rest, hc, hf, hr => absurd (le_trans (sizeLA_pos ys) hf) (by omega)
  | [], acc, d, f + 1, rest, hc, hf, hr => by
    rw [printArrItems, List.nil_append, parseArrRest,
      dropWs_append_ws _ _ (newlineIndent_ws d), dropWs_not_ws _ _ (by decide)]
    simp
  | y :: ys, acc, d, f + 1, rest, hc, hf, hr => by
    have hsz : sizeLA (y :: ys) = 1 + sizeJ y + sizeLA ys := by rw [sizeLA]
    have hszy : sizeJ y ≤ f := by
      have h1 := sizeLA_pos ys
      omega
    have hszys : sizeLA ys ≤ f := by
      have h1 := sizeJ_pos y
      omega
    obtain ⟨hcy, hcys⟩ : Canon y ∧ CanonL ys := by simpa [CanonL] using hc
    have h1 : parseVal f (newlineIndent (d + 1) ++ (printVal (d + 1) y ++
        (printArrItems (d + 1) ys ++ (newlineIndent d ++ (']' :: rest))))) =
        some (y, printArrItems (d + 1) ys ++ (newlineIndent d ++ (']' :: rest))) := by
      rw [parseVal_strip_ws f _ _ (newlineIndent_ws (d + 1))]
      exact parse_print y (d + 1) f _ hcy hszy (notDigitStart_arrTail (d + 1) d ys _)
    have h2 : parseArrRest f (acc ++ [y]) (printArrItems (d + 1) ys ++
        (newlineIndent d ++ (']' :: rest))) = some ((acc ++ [y]) ++ ys, rest) :=
      parse_print_arr ys (acc ++ [y]) d f rest hcys hszys hr
    rw [printArrItems, List.cons_append, parseArrRest, dropWs_not_ws _ _ (by decide)]
    simp only [List.append_assoc]
    simp [h1, h2]
  termination_by ys _ _ _ _ => sizeLA ys
  decreasing_by
    all_goals (try simp only [sizeJ, sizeLA, sizeLO]) <;> omega

theorem parse_print_obj : ∀ (kvs : List (String × Json)) (acc : List (String × Json))
    (d fuel : Nat) (rest : List Char), KeysSorted (acc ++ kvs) → CanonLO kvs →
    sizeLO kvs ≤ fuel → notDigitStart rest = true →
    parseObjRest fuel acc
        (printObjItems (d + 1) kvs ++ (newlineIndent d ++ (rbrace :: rest))) =
      some (acc ++ kvs, rest)
  | kvs, acc, d, 0, rest, hsor, hc, hf, hr =>
    absurd (le_trans (sizeLO_pos kvs) hf) (by omega)
  | [], acc, d, f + 1, rest, hsor, hc, hf, hr => by
    rw [printObjItems, List.nil_append, parseObjRest,
      dropWs_append_ws _ _ (newlineIndent_ws d), dropWs_not_ws _ _ (by decide)]
    simp [show rbrace ≠ ',' from by decide]
  | (k, v) :: kvs, acc, d, f + 1, rest, hsor, hc, hf, hr => by
    have hsz : sizeLO ((k, v) :: kvs) = 2 + sizeJ v + sizeLO kvs := by rw [sizeLO]
    have hszv : 1 + sizeJ v ≤ f := by
      have h1 := sizeLO_pos kvs
      omega
    have hszkvs : sizeLO kvs ≤ f := by
      have h1 := sizeJ_pos v
      omega
    obtain ⟨hcv, hckvs⟩ : Canon v ∧ CanonLO kvs := by simpa [CanonLO] using hc
    have hlt : ∀ p ∈ acc, strLt p.1 k = true := sorted_prefix_lt k v kvs acc hsor
    have hins : mapInsert k v acc = acc ++ [(k, v)] := mapInsert_append k v acc hlt
    have hsor2 : KeysSorted ((acc ++ [(k, v)]) ++ kvs) := by
      have he : (acc ++ [(k, v)]) ++ kvs = acc ++ (k, v) :: kvs := by simp
      rw [he]
      exact hsor
    have h1 : parseMember f (newlineIndent (d + 1) ++ (printMember (d + 1) k v ++
        (printObjItems (d + 1) kvs ++ (newlineIndent d ++ (rbrace :: rest))))) =
        some ((k, v), printObjItems (d + 1) kvs ++
          (newlineIndent d ++ (rbrace :: rest))) := by
      rw [parseMember_strip_ws f _ _ (newlineIndent_ws (d + 1))]
      exact parse_print_member k v (d + 1) f _ hcv hszv
        (notDigitStart_objTail (d + 1) d kvs _)
    have h2 : parseObjRest f (acc ++ [(k, v)]) (printObjItems (d + 1) kvs ++
        (newlineIndent d ++ (rbrace :: rest))) = some ((acc ++ [(k, v)]) ++ kvs, rest) :=
      parse_print_obj kvs (acc ++ [(k, v)]) d f rest hsor2 hckvs hszkvs hr
    rw [printObjItems, List.cons_append, parseObjRest, dropWs_not_ws _ _ (by decide)]
    simp only [List.append_assoc]
    simp [h1, h2, hins]
  termination_by kvs _ _ _ _ => sizeLO kvs
  decreasing_by
    all_goals (try simp only [sizeJ, sizeLA, sizeLO]) <;> omega

end

/-! ### The parser only produces canonical values -/

theorem canonL_append (a b : List Json) (ha : CanonL a) (hb : CanonL b) :
    CanonL (a ++ b) := by
  induction a with
  | nil => simpa using hb
  | cons x a ih =>
    rw [List.cons_append, CanonL]
    rw [CanonL] at ha
    exact ⟨ha.1, ih ha.2⟩

theorem canonLO_mapInsert (k : String) (v : Json) (l : List (String × Json))
    (hv : Canon v) (hl : CanonLO l) : CanonLO (mapInsert k v l) := by
  induction l with
  | nil => simpa [mapInsert, CanonLO] using hv
  | cons p l ih =>
    obtain ⟨k₁, v₁⟩ := p
    rw [CanonLO] at hl
    rw [mapInsert]
    split
    · rw [CanonLO]
      refine ⟨hv, ?_⟩
      rw [CanonLO]
      exact hl
    · split
      · rw [CanonLO]
        exact ⟨hv, hl.2⟩
      · rw [CanonLO]
        exact ⟨hl.1, ih hl.2⟩

mutual

theorem parseVal_canon : ∀ (fuel : Nat) (cs : List Char) (v : Json) (r : List Char),
    parseVal fuel cs = some (v, r) → Canon v
  | 0, cs, v, r, h => by cases h
  | fuel + 1, cs, v, r, h => by
    rw [parseVal] at h
    cases hsk : dropWs cs with
    | nil => rw [hsk] at h; cases h
    | cons c rest =>
      rw [hsk] at h
      simp only [] at h
      by_cases h1 : c = 'n'
      · rw [if_pos h1] at h
        split at h
        · cases h; simp [Canon]
        · cases h
      rw [if_neg h1] at h
      by_cases h2 : c = 't'
      · rw [if_pos h2] at h
        split at h
        · cases h; simp [Canon]
        · cases h
      rw [if_neg h2] at h
      by_cases h3 : c = 'f'
      · rw [if_pos h3] at h
        split at h
        · cases h; simp [Canon]
        · cases h
      rw [if_neg h3] at h
      by_cases h4 : c = '"'
      · rw [if_pos h4] at h
        cases hps : parseStrChars rest with
        | none => rw [hps] at h; cases h
        | some p => rw [hps] at h; cases h; simp [Canon]
      rw [if_neg h4] at h
      by_cases h5 : c = '['
      · rw [if_pos h5] at h
        cases hsk2 : dropWs rest with
        | nil => rw [hsk2] at h; cases h
        | cons c2 r2 =>
          rw [hsk2] at h
          simp only [] at h
          by_cases h6 : c2 = ']'
          · rw [if_pos h6] at h
            cases h
            simp [Canon, CanonL]
          · rw [if_neg h6] at h
            cases hpv : parseVal fuel (c2 :: r2) with
            | none => rw [hpv] at h; cases h
            | some q =>
              obtain ⟨x, r3⟩ := q
              rw [hpv] at h
              simp only [] at h
              cases har : parseArrRest fuel [x] r3 with
              | none => rw [har] at h; cases h
              | some q2 =>
                obtain ⟨xs, r4⟩ := q2
                rw [har] at h
                cases h
                have hx : Canon x := parseVal_canon fuel (c2 :: r2) x r3 hpv
                have hxs : CanonL xs :=
                  parseArrRest_canon fuel [x] r3 xs r har (by simp [CanonL, hx])
                simpa [Canon] using hxs
      rw [if_neg h5] at h
      by_cases h7 : c = lbrace
      · rw [if_pos h7] at h
        cases hsk2 : dropWs rest with
        | nil => rw [hsk2] at h; cases h
        | cons c2 r2 =>
          rw [hsk2] at h
          simp only [] at h
          by_cases h8 : c2 = rbrace
          · rw [if_pos h8] at h
            cases h
            simp [Canon, CanonLO, KeysSorted]
          · rw [if_neg h8] at h
            cases hpm : parseMember fuel (c2 :: r2) with
            | none => rw [hpm] at h; cases h
            | some q =>
              obtain ⟨⟨k, w⟩, r3⟩ := q
              rw [hpm] at h
              simp only [] at h
              cases hor : parseObjRest fuel (mapInsert k w []) r3 with
              | none => rw [hor] at h; cases h
              | some q2 =>
                obtain ⟨kvs, r4⟩ := q2
                rw [hor] at h
                cases h
                have hw : Canon w := parseMember_canon fuel (c2 :: r2) k w r3 hpm
                have hout : KeysSorted kvs ∧ CanonLO kvs :=
                  parseObjRest_canon fuel (mapInsert k w []) r3 kvs r hor
                    (by simp [mapInsert, KeysSorted, headKeyLt])
                    (by simp [mapInsert, CanonLO, hw])
                simpa [Canon] using hout
      rw [if_neg h7] at h
      split at h
      · cases hpn : parseNumber (c :: rest) with
        | none => rw [hpn] at h; cases h
        | some p => rw [hpn] at h; cases h; simp [Canon]
      · cases h
  termination_by fuel _ _ _ _ => fuel
  decreasing_by
    all_goals omega

theorem parseMember_canon : ∀ (fuel : Nat) (cs : List Char) (k : String) (v : Json)
    (r : List Char), parseMember fuel cs = some ((k, v), r) → Canon v
  | 0, cs, k, v, r, h => by cases h
  | fuel + 1, cs, k, v, r, h => by
    rw [parseMember] at h
    cases hsk : dropWs cs with
    | nil => rw [hsk] at h; cases h
    | cons c rest =>
      rw [hsk] at h
      simp only [] at h
      by_cases h1 : c = '"'
      · rw [if_pos h1] at h
        cases hps : parseStrChars rest with
        | none => rw [hps] at h; cases h
        | some p =>
          obtain ⟨kcs, r2⟩ := p
          rw [hps] at h
          simp only [] at h
          cases hsk2 : dropWs r2 with
          | nil => rw [hsk2] at h; cases h
          | cons c3 r3 =>
            rw [hsk2] at h
            simp only [] at h
            by_cases h2 : c3 = ':'
            · rw [if_pos h2] at h
              cases hpv : parseVal fuel r3 with
              | none => rw [hpv] at h; cases h
              | some q =>
                obtain ⟨w, r4⟩ := q
                rw [hpv] at h
                cases h
                exact parseVal_canon fuel r3 v r hpv
            · rw [if_neg h2] at h
              cases h
      · rw [if_neg h1] at h
        cases h
  termination_by fuel _ _ _ _ _ => fuel
  decreasing_by
    all_goals omega

theorem parseArrRest_canon : ∀ (fuel : Nat) (acc : List Json) (cs : List Char)
    (out : List Json) (r : List Char), parseArrRest fuel acc cs = some (out, r) →
    CanonL acc → CanonL out
  | 0, acc, cs, out, r, h, hacc => by cases h
  | fuel + 1, acc, cs, out, r, h, hacc => by
    rw [parseArrRest] at h
    cases hsk : dropWs cs with
    | nil => rw [hsk] at h; cases h
    | cons c rest =>
      rw [hsk] at h
      simp only [] at h
      by_cases h1 : c = ','
      · rw [if_pos h1] at h
        cases hpv : parseVal fuel rest with
        | none => rw [hpv] at h; cases h
        | some q =>
          obtain ⟨x, r2⟩ := q
          rw [hpv] at h
          have hx : Canon x := parseVal_canon fuel rest x r2 hpv
          exact parseArrRest_canon fuel (acc ++ [x]) r2 out r h
            (canonL_append acc [x] hacc (by simp [CanonL, hx]))
      · rw [if_neg h1] at h
        by_cases h2 : c = ']'
        · rw [if_pos h2] at h
          cases h
          exact hacc
        · rw [if_neg h2] at h
          cases h
  termination_by fuel _ _ _ _ _ _ => fuel
  decreasing_by
    all_goals omega

theorem parseObjRest_canon : ∀ (fuel : Nat) (acc : List (String × Json)) (cs : List Char)
    (out : List (String × Json)) (r : List Char),
    parseObjRest fuel acc cs = some (out, r) →
    KeysSorted acc → CanonLO acc → KeysSorted out ∧ CanonLO out
  | 0, acc, cs, out, r, h, hs, hc => by cases h
  | fuel + 1, acc, cs, out, r, h, hs, hc => by
    rw [parseObjRest] at h
    cases hsk : dropWs cs with
    | nil => rw [hsk] at h; cases h
    | cons c rest =>
      rw [hsk] at h
      simp only [] at h
      by_cases h1 : c = ','
      · rw [if_pos h1] at h
        cases hpm : parseMember fuel rest with
        | none => rw [hpm] at h; cases h
        | some q =>
          obtain ⟨⟨k, w⟩, r2⟩ := q
          rw [hpm] at h
          have hw : Canon w := parseMember_canon fuel rest k w r2 hpm
          exact parseObjRest_canon fuel (mapInsert k w acc) r2 out r h
            (keysSorted_mapInsert k w acc hs) (canonLO_mapInsert k w acc hw hc)
      · rw [if_neg h1] at h
        by_cases h2 : c = rbrace
        · rw [if_pos h2] at h
          cases h
          exact ⟨hs, hc⟩
        · rw [if_neg h2] at h
          cases h
  termination_by fuel _ _ _ _ _ _ _ => fuel
  decreasing_by
    all_goals omega

end

/-! ### The default fuel of `parseJson` is enough to re-read a printed value -/

mutual

theorem sizeJ_le_printVal : ∀ (v : Json) (d : Nat), sizeJ v ≤ (printVal d v).length
  | .null, d => by simp [printVal, sizeJ]
  | .bool true, d => by simp [printVal, sizeJ]
  | .bool false, d => by simp [printVal, sizeJ]
  | .num (Int.ofNat n), d => by
    obtain ⟨c, cs, he, _⟩ := printNat_head n
    simp [printVal, printInt, he, sizeJ]
  | .num (Int.negSucc m), d => by
    simp [printVal, printInt, sizeJ]
  | .str s, d => by simp [printVal, sizeJ]
  | .arr [], d => by simp [printVal, sizeJ, sizeLA]
  | .arr (x :: xs), d => by
    have h1 := sizeJ_le_printVal x (d + 1)
    have h2 := sizeLA_le_printArrItems xs (d + 1)
    simp [printVal, sizeJ, sizeLA, newlineIndent]
    omega
  | .obj [], d => by simp [printVal, sizeJ, sizeLO]
  | .obj ((k, v) :: kvs), d => by
    have h1 := sizeJ_le_printVal v (d + 1)
    have h2 := sizeLO_le_printObjItems kvs (d + 1)
    simp [printVal, printMember, sizeJ, sizeLO, newlineIndent]
    omega
  termination_by v _ => sizeJ v
  decreasing_by
    all_goals (try simp only [sizeJ, sizeLA, sizeLO]) <;> omega

theorem sizeLA_le_printArrItems : ∀ (xs : List Json) (d : Nat),
    sizeLA xs ≤ (printArrItems d xs).length + 1
  | [], d => by simp [printArrItems, sizeLA]
  | x :: xs, d => by
    have h1 := sizeJ_le_printVal x d
    have h2 := sizeLA_le_printArrItems xs d
    simp [printArrItems, sizeLA, newlineIndent]
    omega
  termination_by xs _ => sizeLA xs
  decreasing_by
    all_goals (try simp only [sizeJ, sizeLA, sizeLO]) <;> omega

theorem sizeLO_le_printObjItems : ∀ (kvs : List (String × Json)) (d : Nat),
    sizeLO kvs ≤ (printObjItems d kvs).length + 1
  | [], d => by simp [printObjItems, sizeLO]
  | (k, v) :: kvs, d => by
    have h1 := sizeJ_le_printVal v d
    have h2 := sizeLO_le_printObjItems kvs d
    simp [printObjItems, printMember, sizeLO, newlineIndent]
    omega
  termination_by kvs _ => sizeLO kvs
  decreasing_by
    all_goals (try simp only [sizeJ, sizeLA, sizeLO]) <;> omega

end

/-- A canonical value survives a print/parse round trip: re-parsing its
pretty-printed text yields the value back. -/
theorem pretty_parse (v : Json) (hc : Canon v) : parseJson (pretty v) = some v := by
  have hb : sizeJ v ≤ (printVal 0 v).length + 1 :=
    le_trans (sizeJ_le_printVal v 0) (by omega)
  have hp : parseVal ((printVal 0 v).length + 1) (printVal 0 v) = some (v, []) := by
    have h := parse_print v 0 ((printVal 0 v).length + 1) [] hc hb rfl
    rwa [List.append_nil] at h
  simp [parseJson, pretty, hp, dropWs]

/-- Whatever `serde_json::from_str` produces is canonical. -/
theorem parseJson_canon (s : String) (v : Json) (h : parseJson s = some v) : Canon v := by
  unfold parseJson at h
  cases hpv : parseVal (s.data.length + 1) s.data with
  | none => rw [hpv] at h; cases h
  | some p =>
    obtain ⟨w, rest⟩ := p
    rw [hpv] at h
    simp only [] at h
    by_cases hcond : dropWs rest = []
    · rw [if_pos hcond] at h
      cases h
      exact parseVal_canon (s.data.length + 1) s.data v rest hpv
    · rw [if_neg hcond] at h
      cases h

/-- **C9.** On every configuration-read error, `main` prints the error message
and exits: no request is issued (the network is never contacted) and neither
`SearchConfig::new` nor `post_query` runs (no run result exists). -/
theorem c9_config_error_no_network (e : String) (t : Request → Except String Response) :
    main_model (Except.error e) t = (["Error reading configuration: " ++ e], [], none) :=
  rfl

/-- **C6.** For every transport response with a 2xx status whose body parses as
JSON, the single line `post_query` writes carries the pretty-printed value, and
pretty-printing is a semantic round trip: the pretty-printed text re-parses to
exactly the value parsed from the original body
(`parse (pretty (parse body)) = parse body`). -/
theorem c6_success_pretty_roundtrip (c : SearchConfig)
    (t : Request → Except String Response) (resp : Response) (v : Json)
    (ht : t (requestOf c) = Except.ok resp)
    (hs : statusIsSuccess resp.status = true)
    (hp : parseJson resp.body = some v) :
    post_query c t = (["Response body: " ++ pretty v], RunResult.ok) ∧
    parseJson (pretty v) = some v := by
  have hc : Canon v := parseJson_canon resp.body v hp
  constructor
  · show handleResponse (t (requestOf c)) = _
    rw [ht]
    simp [handleResponse, hs, hp]
  · exact pretty_parse v hc

theorem c6_success_pretty_roundtrip_witness :
    post_query sampleConfig (fun _ => Except.ok ⟨200, "\x7b\"a\":1\x7d"⟩) =
      (["Response body: " ++ pretty (Json.obj [("a", Json.num 1)])], RunResult.ok) ∧
    parseJson (pretty (Json.obj [("a", Json.num 1)])) =
      some (Json.obj [("a", Json.num 1)]) :=
  c6_success_pretty_roundtrip sampleConfig
    (fun _ => Except.ok ⟨200, "\x7b\"a\":1\x7d"⟩) ⟨200, "\x7b\"a\":1\x7d"⟩
    (Json.obj [("a", Json.num 1)]) rfl rfl rfl

end EbayApi
